import Mathlib

/-!
Verification of the set-search core of a Rummikub hand analyzer.

The embedding follows `src/rummikub.rs`: tiles (`Card`) are numbered tiles
in one of four colors or wildcards; `valid_sets` concatenates the group
search (`find_same_numbers`) and the run search (`find_runs`).  `BTreeSet`
collections are modelled as strictly sorted lists under the derived total
order; the panicking wildcard pop in `create_run_windows` is modelled with
`Option` (`none` standing for a panic).
-/

set_option maxHeartbeats 1000000
set_option linter.unnecessarySeqFocus false

namespace Rummikub

/-- The four tile colors, in Rust declaration order (which fixes the derived order). -/
inductive Color : Type
  | Red
  | Blue
  | Black
  | Yellow
deriving DecidableEq, Repr

/-- Index of a color variant, mirroring the derived `Ord` on `Color`. -/
def Color.idx : Color → Nat
  | .Red => 0
  | .Blue => 1
  | .Black => 2
  | .Yellow => 3

/-- A tile: `Numbered number color` or `Wildcard` (Rust's `Card` enum). -/
inductive Card : Type
  | Numbered (number : Int) (color : Color)
  | Wildcard
deriving DecidableEq, Repr

/-- Rust's `Card::number`. -/
def Card.number : Card → Option Int
  | .Numbered n _ => some n
  | .Wildcard => none

/-- Rust's `Card::color`. -/
def Card.color : Card → Option Color
  | .Numbered _ c => some c
  | .Wildcard => none

/-- Rust's `Card::is_wildcard`. -/
def Card.isWild : Card → Bool
  | .Wildcard => true
  | .Numbered _ _ => false

/-- Strict order on colors derived from the variant order. -/
def colorLt (a b : Color) : Bool := a.idx < b.idx

/-- Strict order on cards mirroring the derived `Ord` on Rust's `Card`:
numbered tiles compare lexicographically by number then color, and every
numbered tile is below `Wildcard`. -/
def cardLt : Card → Card → Bool
  | .Numbered n1 c1, .Numbered n2 c2 =>
      decide (n1 < n2) || (decide (n1 = n2) && colorLt c1 c2)
  | .Numbered _ _, .Wildcard => true
  | .Wildcard, _ => false

/-- Non-strict order on cards. -/
def cardLe (a b : Card) : Bool := cardLt a b || decide (a = b)

theorem colorLt_iff {a b : Color} : colorLt a b = true ↔ a.idx < b.idx := by
  simp [colorLt]

theorem Color.idx_inj {a b : Color} (h : a.idx = b.idx) : a = b := by
  cases a <;> cases b <;> simp_all [Color.idx]

theorem cardLt_irrefl (a : Card) : cardLt a a = false := by
  cases a <;> simp [cardLt, colorLt]

theorem cardLt_asymm {a b : Card} (h : cardLt a b = true) : cardLt b a = false := by
  cases a <;> cases b <;>
    simp_all [cardLt, colorLt] <;> omega

theorem cardLt_trans {a b c : Card} (h1 : cardLt a b = true) (h2 : cardLt b c = true) :
    cardLt a c = true := by
  cases a <;> cases b <;> cases c <;>
    simp_all [cardLt, colorLt] <;> omega

theorem cardLt_total (a b : Card) : cardLt a b = true ∨ a = b ∨ cardLt b a = true := by
  cases a with
  | Wildcard => cases b with
    | Wildcard => right; left; rfl
    | Numbered n c => right; right; simp [cardLt]
  | Numbered n1 c1 => cases b with
    | Wildcard => left; simp [cardLt]
    | Numbered n2 c2 =>
      rcases lt_trichotomy n1 n2 with h | h | h
      · left; simp [cardLt, h]
      · subst h
        rcases Nat.lt_trichotomy c1.idx c2.idx with hc | hc | hc
        · left; simp [cardLt, colorLt, hc]
        · right; left; rw [Color.idx_inj hc]
        · right; right; simp [cardLt, colorLt, hc]
      · right; right; simp [cardLt, h]

theorem cardLe_refl (a : Card) : cardLe a a = true := by
  simp [cardLe]

theorem cardLe_total (a b : Card) : cardLe a b = true ∨ cardLe b a = true := by
  rcases cardLt_total a b with h | h | h
  · left; simp [cardLe, h]
  · left; simp [cardLe, h]
  · right; simp [cardLe, h]

theorem cardLe_trans {a b c : Card} (h1 : cardLe a b = true) (h2 : cardLe b c = true) :
    cardLe a c = true := by
  simp only [cardLe, Bool.or_eq_true, decide_eq_true_eq] at h1 h2 ⊢
  rcases h1 with h1 | rfl
  · rcases h2 with h2 | rfl
    · exact Or.inl (cardLt_trans h1 h2)
    · exact Or.inl h1
  · exact h2

theorem cardLt_of_cardLe_of_ne {a b : Card} (h : cardLe a b = true) (hne : a ≠ b) :
    cardLt a b = true := by
  simp only [cardLe, Bool.or_eq_true, decide_eq_true_eq] at h
  rcases h with h | rfl
  · exact h
  · exact absurd rfl hne

/-- Insertion step of the sort by the card order (models `Vec::sort`). -/
def insertCard (c : Card) : List Card → List Card
  | [] => [c]
  | x :: xs => if cardLe c x then c :: x :: xs else x :: insertCard c xs

/-- Insertion sort by the card total order: models both Rust's `sort` on a
card vector and the canonical (sorted) key of a result set. -/
def canonical : List Card → List Card
  | [] => []
  | c :: cs => insertCard c (canonical cs)

/-- Sortedness by the card order, as a pairwise predicate. -/
abbrev CardSorted (l : List Card) : Prop := l.Pairwise (fun a b => cardLe a b = true)

theorem cardLe_antisymm {a b : Card} (h1 : cardLe a b = true) (h2 : cardLe b a = true) :
    a = b := by
  by_cases hab : a = b
  · exact hab
  · have hlt : cardLt a b = true := cardLt_of_cardLe_of_ne h1 hab
    have hlt2 : cardLt b a = true := cardLt_of_cardLe_of_ne h2 (fun h => hab h.symm)
    have := cardLt_asymm hlt
    rw [this] at hlt2
    exact absurd hlt2 (by simp)

instance : IsAntisymm Card (fun a b => cardLe a b = true) :=
  ⟨fun _ _ => cardLe_antisymm⟩

theorem insertCard_perm (c : Card) (l : List Card) :
    List.Perm (insertCard c l) (c :: l) := by
  induction l with
  | nil => simp [insertCard]
  | cons x xs ih =>
    simp only [insertCard]
    by_cases h : cardLe c x = true
    · simp [h]
    · rw [if_neg h]
      exact (ih.cons x).trans (List.Perm.swap c x xs)

theorem canonical_perm (l : List Card) : List.Perm (canonical l) l := by
  induction l with
  | nil => exact List.Perm.refl []
  | cons c cs ih => exact (insertCard_perm c (canonical cs)).trans (ih.cons c)

theorem insertCard_sorted {c : Card} {l : List Card} (h : CardSorted l) :
    CardSorted (insertCard c l) := by
  induction l with
  | nil => simp [insertCard]
  | cons x xs ih =>
    simp only [insertCard]
    by_cases hle : cardLe c x = true
    · rw [if_pos hle]
      refine List.pairwise_cons.mpr ⟨?_, h⟩
      intro b hb
      rcases List.mem_cons.mp hb with rfl | hb
      · exact hle
      · exact cardLe_trans hle ((List.pairwise_cons.mp h).1 b hb)
    · rw [if_neg hle]
      have hx : cardLe x c = true := (cardLe_total c x).resolve_left hle
      rcases List.pairwise_cons.mp h with ⟨hxall, hxs⟩
      refine List.pairwise_cons.mpr ⟨?_, ih hxs⟩
      intro b hb
      rcases List.mem_cons.mp ((insertCard_perm c xs).mem_iff.mp hb) with rfl | hb
      · exact hx
      · exact hxall b hb

theorem canonical_sorted (l : List Card) : CardSorted (canonical l) := by
  induction l with
  | nil => exact List.Pairwise.nil
  | cons c cs ih => exact insertCard_sorted ih

theorem canonical_of_sorted {l : List Card} (h : CardSorted l) : canonical l = l := by
  induction l with
  | nil => rfl
  | cons x xs ih =>
    rcases List.pairwise_cons.mp h with ⟨hall, hxs⟩
    simp only [canonical, ih hxs]
    cases xs with
    | nil => rfl
    | cons y ys =>
      have : cardLe x y = true := hall y (by simp)
      simp [insertCard, this]

theorem canonical_eq_of_perm {l1 l2 : List Card} (h : List.Perm l1 l2) :
    canonical l1 = canonical l2 := by
  have h1 : CardSorted (canonical l1) := canonical_sorted l1
  have h2 : CardSorted (canonical l2) := canonical_sorted l2
  have hp : List.Perm (canonical l1) (canonical l2) :=
    (canonical_perm l1).trans (h.trans (canonical_perm l2).symm)
  exact List.eq_of_perm_of_sorted hp h1 h2

theorem perm_of_canonical_eq {l1 l2 : List Card} (h : canonical l1 = canonical l2) :
    List.Perm l1 l2 := by
  have := (canonical_perm l1).symm.trans (h ▸ canonical_perm l2)
  exact this

/-- Lexicographic strict order on card vectors, mirroring the derived `Ord`
on Rust's `Vec` of cards (a strict prefix is smaller). -/
def listLt : List Card → List Card → Bool
  | [], [] => false
  | [], _ :: _ => true
  | _ :: _, [] => false
  | x :: xs, y :: ys => cardLt x y || (decide (x = y) && listLt xs ys)

theorem listLt_irrefl (l : List Card) : listLt l l = false := by
  induction l with
  | nil => rfl
  | cons x xs ih => simp [listLt, cardLt_irrefl, ih]

theorem listLt_trans {l1 l2 l3 : List Card} (h1 : listLt l1 l2 = true)
    (h2 : listLt l2 l3 = true) : listLt l1 l3 = true := by
  induction l1 generalizing l2 l3 with
  | nil =>
    cases l2 with
    | nil => exact absurd h1 (by simp [listLt])
    | cons y ys =>
      cases l3 with
      | nil => exact absurd h2 (by simp [listLt])
      | cons z zs => simp [listLt]
  | cons x xs ih =>
    cases l2 with
    | nil => exact absurd h1 (by simp [listLt])
    | cons y ys =>
      cases l3 with
      | nil => exact absurd h2 (by simp [listLt])
      | cons z zs =>
        simp only [listLt, Bool.or_eq_true, Bool.and_eq_true, decide_eq_true_eq] at h1 h2 ⊢
        rcases h1 with h1 | ⟨rfl, h1⟩
        · rcases h2 with h2 | ⟨rfl, h2⟩
          · exact Or.inl (cardLt_trans h1 h2)
          · exact Or.inl h1
        · rcases h2 with h2 | ⟨rfl, h2⟩
          · exact Or.inl h2
          · exact Or.inr ⟨rfl, ih h1 h2⟩

theorem listLt_total (l1 l2 : List Card) :
    listLt l1 l2 = true ∨ l1 = l2 ∨ listLt l2 l1 = true := by
  induction l1 generalizing l2 with
  | nil =>
    cases l2 with
    | nil => right; left; rfl
    | cons y ys => left; simp [listLt]
  | cons x xs ih =>
    cases l2 with
    | nil => right; right; simp [listLt]
    | cons y ys =>
      rcases cardLt_total x y with h | rfl | h
      · left; simp [listLt, h]
      · rcases ih ys with h2 | rfl | h2
        · left; simp [listLt, h2]
        · right; left; rfl
        · right; right; simp [listLt, h2]
      · right; right; simp [listLt, h]

/-- Insertion into a sorted duplicate-free list of card vectors: the model of
`BTreeSet::insert` on a set of result sets. -/
def setInsert (x : List Card) : List (List Card) → List (List Card)
  | [] => [x]
  | y :: ys =>
    if listLt x y then x :: y :: ys
    else if x = y then y :: ys
    else y :: setInsert x ys

/-- Union of two set models, by repeated insertion (models `BTreeSet::append`). -/
def setUnion (s t : List (List Card)) : List (List Card) :=
  t.foldl (fun acc x => setInsert x acc) s

theorem mem_setInsert {x y : List Card} {s : List (List Card)} :
    y ∈ setInsert x s ↔ y = x ∨ y ∈ s := by
  induction s with
  | nil => simp [setInsert]
  | cons z zs ih =>
    simp only [setInsert]
    by_cases h1 : listLt x z = true
    · rw [if_pos h1]; simp
    · rw [if_neg h1]
      by_cases h2 : x = z
      · rw [if_pos h2]; subst h2; simp
      · rw [if_neg h2]; simp [ih]; tauto

/-- Strict sortedness of a set model. -/
abbrev SetSorted (s : List (List Card)) : Prop :=
  s.Pairwise (fun a b => listLt a b = true)

theorem setInsert_sorted {x : List Card} {s : List (List Card)} (h : SetSorted s) :
    SetSorted (setInsert x s) := by
  induction s with
  | nil => simp [setInsert]
  | cons z zs ih =>
    simp only [setInsert]
    by_cases h1 : listLt x z = true
    · rw [if_pos h1]
      refine List.pairwise_cons.mpr ⟨?_, h⟩
      intro b hb
      rcases List.mem_cons.mp hb with rfl | hb
      · exact h1
      · exact listLt_trans h1 ((List.pairwise_cons.mp h).1 b hb)
    · rw [if_neg h1]
      by_cases h2 : x = z
      · rw [if_pos h2]; exact h
      · rw [if_neg h2]
        rcases List.pairwise_cons.mp h with ⟨hall, hzs⟩
        have hzx : listLt z x = true := by
          rcases listLt_total x z with h3 | h3 | h3
          · exact absurd h3 h1
          · exact absurd h3 h2
          · exact h3
        refine List.pairwise_cons.mpr ⟨?_, ih hzs⟩
        intro b hb
        rcases mem_setInsert.mp hb with rfl | hb
        · exact hzx
        · exact hall b hb

theorem setUnion_sorted {s t : List (List Card)} (h : SetSorted s) :
    SetSorted (setUnion s t) := by
  induction t generalizing s with
  | nil => exact h
  | cons x xs ih => exact ih (setInsert_sorted h)

theorem mem_setUnion {y : List Card} {s t : List (List Card)} :
    y ∈ setUnion s t ↔ y ∈ s ∨ y ∈ t := by
  induction t generalizing s with
  | nil => simp [setUnion]
  | cons x xs ih =>
    show y ∈ setUnion (setInsert x s) xs ↔ _
    rw [ih, mem_setInsert]
    simp
    tauto

/-- Removal of the element at a given index (Rust's `Vec::remove`). -/
def eraseAt : List Card → Nat → List Card
  | [], _ => []
  | _ :: xs, 0 => xs
  | x :: xs, n + 1 => x :: eraseAt xs n

theorem eraseAt_sublist (l : List Card) (i : Nat) : (eraseAt l i).Sublist l := by
  induction l generalizing i with
  | nil => simp [eraseAt]
  | cons x xs ih =>
    cases i with
    | zero => exact List.sublist_cons_self x xs
    | succ n => exact (ih n).cons₂ x

theorem length_eraseAt {l : List Card} {i : Nat} (h : i < l.length) :
    (eraseAt l i).length = l.length - 1 := by
  induction l generalizing i with
  | nil => simp at h
  | cons x xs ih =>
    cases i with
    | zero => simp [eraseAt]
    | succ n =>
      have hn : n < xs.length := by simpa using h
      simp [eraseAt, ih hn]
      omega

/-- Recursion of `create_permutations` with an explicit structural fuel;
`create_permutations` supplies the pool size as fuel, which the recursion
never exhausts since every recursive call removes one element. -/
def createPermAux : Nat → List Card → List (List Card)
  | 0, s => if s.length ≤ 4 then [s] else []
  | n + 1, s =>
    let p0 : List (List Card) := if s.length ≤ 4 then [s] else []
    if 3 < s.length then
      (List.range s.length).foldl
        (fun acc i => setUnion acc (createPermAux n (eraseAt s i))) p0
    else p0

/-- Rust's `create_permutations`: starting from a candidate pool, collect the
pool itself when its size is at most 4, and recurse on every single-element
removal when the size exceeds 3, accumulating into a sorted set model. -/
def create_permutations (s : List Card) : List (List Card) :=
  createPermAux s.length s

theorem mem_foldl_setUnion {α : Type} (g : α → List (List Card)) (l : List α)
    (init : List (List Card)) (y : List Card) :
    y ∈ l.foldl (fun acc i => setUnion acc (g i)) init ↔ y ∈ init ∨ ∃ i ∈ l, y ∈ g i := by
  induction l generalizing init with
  | nil => simp
  | cons a l2 ih =>
    simp only [List.foldl_cons, ih, mem_setUnion, List.mem_cons]
    constructor
    · rintro (⟨h | h⟩ | ⟨i, hi, hy⟩)
      · exact Or.inl h
      · exact Or.inr ⟨a, Or.inl rfl, h⟩
      · exact Or.inr ⟨i, Or.inr hi, hy⟩
    · rintro (h | ⟨i, rfl | hi, hy⟩)
      · exact Or.inl (Or.inl h)
      · exact Or.inl (Or.inr hy)
      · exact Or.inr ⟨i, hi, hy⟩

theorem mem_create_permutations_iff {s : List Card} {y : List Card} :
    y ∈ create_permutations s ↔
      (s.length ≤ 4 ∧ y = s) ∨
      (3 < s.length ∧ ∃ i < s.length, y ∈ create_permutations (eraseAt s i)) := by
  by_cases hnil : s = []
  · subst hnil
    have hval : create_permutations [] = [[]] := rfl
    rw [hval]
    simp
  · obtain ⟨a, t, rfl⟩ := List.exists_cons_of_ne_nil hnil
    have hunfold : create_permutations (a :: t) =
        (if 3 < (a :: t).length then
          (List.range (a :: t).length).foldl
            (fun acc i => setUnion acc (createPermAux t.length (eraseAt (a :: t) i)))
            (if (a :: t).length ≤ 4 then [a :: t] else [])
        else (if (a :: t).length ≤ 4 then [a :: t] else [])) := rfl
    rw [hunfold]
    have hconv : ∀ i, i < (a :: t).length →
        createPermAux t.length (eraseAt (a :: t) i) =
          create_permutations (eraseAt (a :: t) i) := by
      intro i hi
      have hlen : (eraseAt (a :: t) i).length = t.length := by
        rw [length_eraseAt hi]
        simp
      rw [create_permutations, hlen]
    by_cases h3 : 3 < (a :: t).length
    · rw [if_pos h3]
      rw [mem_foldl_setUnion]
      constructor
      · rintro (hy | ⟨i, hi, hy⟩)
        · by_cases h4 : (a :: t).length ≤ 4
          · rw [if_pos h4, List.mem_singleton] at hy
            exact Or.inl ⟨h4, hy⟩
          · rw [if_neg h4] at hy
            cases hy
        · have hilt : i < (a :: t).length := List.mem_range.mp hi
          rw [hconv i hilt] at hy
          exact Or.inr ⟨h3, i, hilt, hy⟩
      · rintro (⟨h4, rfl⟩ | ⟨_, i, hi, hy⟩)
        · left
          rw [if_pos h4]
          exact List.mem_singleton.mpr rfl
        · right
          refine ⟨i, List.mem_range.mpr hi, ?_⟩
          rw [hconv i hi]
          exact hy
    · rw [if_neg h3]
      have h4 : (a :: t).length ≤ 4 := by omega
      rw [if_pos h4]
      simp only [List.mem_singleton, h3, false_and, or_false]
      exact ⟨fun hy => ⟨h4, hy⟩, fun hy => hy.2⟩

theorem create_permutations_sublist_aux (n : Nat) :
    ∀ s : List Card, s.length ≤ n → ∀ y ∈ create_permutations s, y.Sublist s := by
  induction n with
  | zero =>
    intro s hs y hy
    rcases mem_create_permutations_iff.mp hy with ⟨_, rfl⟩ | ⟨h3, _⟩
    · exact List.Sublist.refl y
    · omega
  | succ n ih =>
    intro s hs y hy
    rcases mem_create_permutations_iff.mp hy with ⟨_, rfl⟩ | ⟨h3, i, hi, hy2⟩
    · exact List.Sublist.refl y
    · have hlen : (eraseAt s i).length ≤ n := by
        rw [length_eraseAt hi]; omega
      exact (ih (eraseAt s i) hlen y hy2).trans (eraseAt_sublist s i)

theorem create_permutations_sublist {s y : List Card} (hy : y ∈ create_permutations s) :
    y.Sublist s :=
  create_permutations_sublist_aux s.length s (Nat.le_refl _) y hy

theorem create_permutations_length_aux (n : Nat) :
    ∀ s : List Card, s.length ≤ n → 3 ≤ s.length →
      ∀ y ∈ create_permutations s, y.length = 3 ∨ y.length = 4 := by
  induction n with
  | zero => intro s hs h3; omega
  | succ n ih =>
    intro s hs h3 y hy
    rcases mem_create_permutations_iff.mp hy with ⟨h4, rfl⟩ | ⟨hgt, i, hi, hy2⟩
    · omega
    · have hlen : (eraseAt s i).length ≤ n := by
        rw [length_eraseAt hi]; omega
      have h3e : 3 ≤ (eraseAt s i).length := by
        rw [length_eraseAt hi]; omega
      exact ih (eraseAt s i) hlen h3e y hy2

theorem create_permutations_length {s y : List Card} (h3 : 3 ≤ s.length)
    (hy : y ∈ create_permutations s) : y.length = 3 ∨ y.length = 4 :=
  create_permutations_length_aux s.length s (Nat.le_refl _) h3 y hy

/-- Rust's `get_wildcards`: the wildcard tiles of a hand, in hand order. -/
def get_wildcards (cards : List Card) : List Card :=
  cards.filter Card.isWild

theorem mem_get_wildcards {cards : List Card} {c : Card} (h : c ∈ get_wildcards cards) :
    c = Card.Wildcard := by
  rcases List.mem_filter.mp h with ⟨_, hw⟩
  cases c with
  | Numbered n co => exact absurd hw (by simp [Card.isWild])
  | Wildcard => rfl

/-- Grouping of consecutive tiles sharing the same `number` key: the model of
`group_by(|c| c.number())` on the sorted wildcard-free hand. -/
def groupRuns : List Card → List (List Card)
  | [] => []
  | [x] => [[x]]
  | x :: y :: rest =>
    match groupRuns (y :: rest) with
    | [] => [[x]]
    | g :: gs =>
      if x.number = y.number then (x :: g) :: gs else [x] :: g :: gs

theorem groupRuns_flatten (l : List Card) : (groupRuns l).flatten = l := by
  induction l with
  | nil => rfl
  | cons x xs ih =>
    cases xs with
    | nil => rfl
    | cons y rest =>
      rw [groupRuns]
      rcases hg : groupRuns (y :: rest) with _ | ⟨g, gs⟩
      · rw [hg] at ih; simp at ih
      · rw [hg] at ih
        dsimp only
        by_cases hn : x.number = y.number
        · rw [if_pos hn]
          simpa using ih
        · rw [if_neg hn]
          simpa using ih

theorem groupRuns_mem_sublist {l : List Card} {g : List Card} (h : g ∈ groupRuns l) :
    g.Sublist l := by
  have := List.sublist_flatten_of_mem h
  rwa [groupRuns_flatten] at this

theorem groupRuns_cons :
    ∀ (rest : List Card) (x : Card), ∃ g gs, groupRuns (x :: rest) = (x :: g) :: gs := by
  intro rest
  induction rest with
  | nil => intro x; exact ⟨[], [], rfl⟩
  | cons y rest2 ih =>
    intro x
    obtain ⟨g, gs, hg⟩ := ih y
    rw [groupRuns, hg]
    dsimp only
    by_cases hn : x.number = y.number
    · rw [if_pos hn]; exact ⟨y :: g, gs, rfl⟩
    · rw [if_neg hn]; exact ⟨[], (y :: g) :: gs, rfl⟩

/-- Every group produced by `groupRuns` is nonempty and all its members share
one `number` key. -/
theorem groupRuns_same_number {l : List Card} :
    ∀ g ∈ groupRuns l, ∃ k, ∀ c ∈ g, c.number = k := by
  induction l with
  | nil => intro g hg; simp [groupRuns] at hg
  | cons x xs ih =>
    intro g hg
    cases xs with
    | nil =>
      simp only [groupRuns, List.mem_singleton] at hg
      subst hg
      exact ⟨x.number, by simp⟩
    | cons y rest =>
      rw [groupRuns] at hg
      obtain ⟨g0, gs0, hg0⟩ := groupRuns_cons rest y
      rw [hg0] at hg
      dsimp only at hg
      by_cases hn : x.number = y.number
      · rw [if_pos hn] at hg
        rcases List.mem_cons.mp hg with rfl | hmem
        · obtain ⟨k, hk⟩ := ih (y :: g0) (by rw [hg0]; exact List.mem_cons_self _ _)
          refine ⟨k, ?_⟩
          intro c hc
          rcases List.mem_cons.mp hc with rfl | hc
          · rw [hn]; exact hk y (List.mem_cons_self _ _)
          · exact hk c hc
        · exact ih g (by rw [hg0]; exact List.mem_cons_of_mem _ hmem)
      · rw [if_neg hn] at hg
        rcases List.mem_cons.mp hg with rfl | hmem
        · exact ⟨x.number, by simp⟩
        · exact ih g (by rw [hg0]; exact hmem)

/-- Rust's `unique_by(|c| c.color())`, with the set of already-seen color keys
made explicit: keeps the first tile of each color. -/
def uniqueByAux (seen : List (Option Color)) : List Card → List Card
  | [] => []
  | x :: xs =>
    if x.color ∈ seen then uniqueByAux seen xs
    else x :: uniqueByAux (x.color :: seen) xs

theorem uniqueByAux_sublist (seen : List (Option Color)) (l : List Card) :
    (uniqueByAux seen l).Sublist l := by
  induction l generalizing seen with
  | nil => simp [uniqueByAux]
  | cons x xs ih =>
    rw [uniqueByAux]
    by_cases h : x.color ∈ seen
    · rw [if_pos h]
      exact (ih seen).trans (List.sublist_cons_self x xs)
    · rw [if_neg h]
      exact (ih (x.color :: seen)).cons₂ x

theorem uniqueByAux_not_seen (seen : List (Option Color)) (l : List Card) :
    ∀ c ∈ uniqueByAux seen l, c.color ∉ seen := by
  induction l generalizing seen with
  | nil => intro c hc; simp [uniqueByAux] at hc
  | cons x xs ih =>
    intro c hc
    rw [uniqueByAux] at hc
    by_cases h : x.color ∈ seen
    · rw [if_pos h] at hc
      exact ih seen c hc
    · rw [if_neg h] at hc
      rcases List.mem_cons.mp hc with rfl | hc
      · exact h
      · intro hmem
        exact ih (x.color :: seen) c hc (List.mem_cons_of_mem _ hmem)

/-- The colors of the tiles kept by `unique_by` are pairwise distinct. -/
theorem uniqueByAux_pairwise (seen : List (Option Color)) (l : List Card) :
    (uniqueByAux seen l).Pairwise (fun a b => a.color ≠ b.color) := by
  induction l generalizing seen with
  | nil => simp [uniqueByAux]
  | cons x xs ih =>
    rw [uniqueByAux]
    by_cases h : x.color ∈ seen
    · rw [if_pos h]; exact ih seen
    · rw [if_neg h]
      refine List.pairwise_cons.mpr ⟨?_, ih (x.color :: seen)⟩
      intro b hb hcol
      exact uniqueByAux_not_seen _ _ b hb (by rw [← hcol]; exact List.mem_cons_self _ _)

/-- Rust's `find_same_numbers`: sort the hand, group the wildcard-free tiles by
number, keep one tile per color, and when the pool (group plus all wildcards)
has at least 3 tiles, add all its size-3 and size-4 subsets to the result set. -/
def find_same_numbers (cards : List Card) : List (List Card) :=
  let ws := get_wildcards cards
  let sorted := canonical cards
  let groups := groupRuns (sorted.filter (fun c => !c.isWild))
  groups.foldl
    (fun acc g =>
      let u := uniqueByAux [] g
      if 3 ≤ u.length + ws.length then setUnion acc (create_permutations (u ++ ws))
      else acc)
    []

/-- Distinct numbers carried by tiles of one color, in order of first
occurrence: the model of the per-color `BTreeSet` of `find_runs` (which
dedups equal tiles; only size and number membership are observable). -/
def numbersOf (cards : List Card) (co : Color) : List Int :=
  (cards.filterMap (fun c => match c with
    | Card.Numbered n c2 => if c2 = co then some n else none
    | Card.Wildcard => none)).dedup

/-- The 13-slot array of `find_runs`: slot `i` holds the tile numbered `i+1`
of the given color when the hand has one, else an empty slot. -/
def slotsFor (cards : List Card) (co : Color) : List (Option Card) :=
  (List.range 13).map (fun (i : Nat) =>
    if ((i : Int) + 1) ∈ numbersOf cards co then some (Card.Numbered ((i : Int) + 1) co)
    else none)

/-- Number of empty slots in a window (Rust's `missing_cards`). -/
def countNone (l : List (Option Card)) : Nat :=
  (l.filter (fun o => o.isNone)).length

/-- Rust's `Vec::pop`: removes and returns the last element, or fails. -/
def popLast : List Card → Option (Card × List Card)
  | [] => none
  | [x] => some (x, [])
  | x :: y :: ys =>
    match popLast (y :: ys) with
    | some (c, rest) => some (c, x :: rest)
    | none => none

/-- Populating one window left to right: kept slots pass their tile through,
empty slots pop a wildcard from the temporary pool.  A failing pop models the
`unwrap` panic and yields `none`. -/
def fillWindow : List (Option Card) → List Card → Option (List Card)
  | [], _ => some []
  | some c :: rest, ws =>
    match fillWindow rest ws with
    | some r => some (c :: r)
    | none => none
  | none :: rest, ws =>
    match popLast ws with
    | some (c, ws2) =>
      match fillWindow rest ws2 with
      | some r => some (c :: r)
      | none => none
    | none => none

/-- The subwindow `set[start .. start+len]` of the slot array. -/
def windowSlice (slots : List (Option Card)) (start len : Nat) : List (Option Card) :=
  (slots.drop start).take len

/-- Inner loop of `create_run_windows`: scan the given start offsets at one
window length, emitting every window whose empty-slot count fits the pool. -/
def collectStarts (slots : List (Option Card)) (ws : List Card) (len : Nat) :
    List Nat → Option (List (List Card))
  | [] => some []
  | s :: rest =>
    let w := windowSlice slots s len
    if countNone w ≤ ws.length then
      match fillWindow w ws with
      | some run =>
        match collectStarts slots ws len rest with
        | some rs => some (run :: rs)
        | none => none
      | none => none
    else collectStarts slots ws len rest

/-- The window lengths `(3..=n).rev()` of the outer loop: `n` down to 3. -/
def lengthsDesc (n : Nat) : List Nat :=
  (List.range (n - 2)).map (fun i => n - i)

/-- Outer loop of `create_run_windows` over a list of window lengths. -/
def collectLengths (slots : List (Option Card)) (ws : List Card) :
    List Nat → Option (List (List Card))
  | [] => some []
  | len :: rest =>
    match collectStarts slots ws len (List.range (slots.length - len + 1)) with
    | some rs1 =>
      match collectLengths slots ws rest with
      | some rs2 => some (rs1 ++ rs2)
      | none => none
    | none => none

/-- Rust's `create_run_windows`: for every window length from the slot-array
length down to 3 and every offset, emit the wildcard-filled window whenever
its empty-slot count is at most the wildcard count. -/
def create_run_windows (slots : List (Option Card)) (ws : List Card) :
    Option (List (List Card)) :=
  collectLengths slots ws (lengthsDesc slots.length)

/-- Contribution of one color to `find_runs`: nothing when the hand has no
tile of that color (no map entry) or fewer than 3 candidates, else the run
windows of its slot array. -/
def runsForColor (cards : List Card) (ws : List Card) (co : Color) :
    Option (List (List Card)) :=
  let nums := numbersOf cards co
  if nums.length = 0 then some []
  else if 3 ≤ nums.length + ws.length then create_run_windows (slotsFor cards co) ws
  else some []

/-- The colors in the ascending order of the derived `Ord`, which is the
iteration order of the `BTreeMap` of `find_runs`. -/
def colorList : List Color := [Color.Red, Color.Blue, Color.Black, Color.Yellow]

/-- Rust's `find_runs`: concatenate the run windows of every color present,
in ascending color order. -/
def find_runs (cards : List Card) : Option (List (List Card)) :=
  let ws := get_wildcards cards
  colorList.foldr
    (fun co acc =>
      match runsForColor cards ws co, acc with
      | some rs, some rest => some (rs ++ rest)
      | _, _ => none)
    (some [])

/-- Rust's `valid_sets`: the group results followed by the run results. -/
def valid_sets (cards : List Card) : Option (List (List Card)) :=
  match find_runs cards with
  | some runs => some (find_same_numbers cards ++ runs)
  | none => none

theorem popLast_of_ne_nil {l : List Card} (h : l ≠ []) :
    ∃ c rest, popLast l = some (c, rest) ∧ c ∈ l ∧ rest.Sublist l ∧
      rest.length + 1 = l.length := by
  induction l with
  | nil => exact absurd rfl h
  | cons x xs ih =>
    cases xs with
    | nil =>
      exact ⟨x, [], rfl, List.mem_singleton.mpr rfl, List.nil_sublist _, rfl⟩
    | cons y ys =>
      obtain ⟨c, rest, hpop, hmem, hsub, hlen⟩ := ih (by simp)
      refine ⟨c, x :: rest, ?_, List.mem_cons_of_mem x hmem, hsub.cons₂ x, by simpa using hlen⟩
      rw [popLast, hpop]

theorem countNone_cons_some (c : Card) (rest : List (Option Card)) :
    countNone (some c :: rest) = countNone rest := by
  simp [countNone]

theorem countNone_cons_none (rest : List (Option Card)) :
    countNone (none :: rest) = countNone rest + 1 := by
  simp [countNone]

theorem fillWindow_isSome :
    ∀ (w : List (Option Card)) (ws : List Card), countNone w ≤ ws.length →
      (fillWindow w ws).isSome := by
  intro w
  induction w with
  | nil => intro ws _; rfl
  | cons o rest ih =>
    intro ws hcnt
    cases o with
    | some c =>
      rw [countNone_cons_some] at hcnt
      have := ih ws hcnt
      rw [fillWindow]
      rcases hf : fillWindow rest ws with _ | r
      · rw [hf] at this; exact absurd this (by simp)
      · rfl
    | none =>
      rw [countNone_cons_none] at hcnt
      have hne : ws ≠ [] := by
        intro h; rw [h] at hcnt; simp at hcnt
      obtain ⟨c, ws2, hpop, _, _, hlen⟩ := popLast_of_ne_nil hne
      have hcnt2 : countNone rest ≤ ws2.length := by omega
      have := ih ws2 hcnt2
      rcases hf : fillWindow rest ws2 with _ | r
      · rw [hf] at this; exact absurd this (by simp)
      · rw [fillWindow, hpop]
        dsimp only
        rw [hf]
        rfl

theorem fillWindow_eq_map :
    ∀ (w : List (Option Card)) (ws : List Card), countNone w ≤ ws.length →
      (∀ c ∈ ws, c = Card.Wildcard) →
      fillWindow w ws = some (w.map (fun o => o.getD Card.Wildcard)) := by
  intro w
  induction w with
  | nil => intro ws _ _; rfl
  | cons o rest ih =>
    intro ws hcnt hall
    cases o with
    | some c =>
      rw [countNone_cons_some] at hcnt
      rw [fillWindow, ih ws hcnt hall]
      rfl
    | none =>
      rw [countNone_cons_none] at hcnt
      have hne : ws ≠ [] := by
        intro h; rw [h] at hcnt; simp at hcnt
      obtain ⟨c, ws2, hpop, hmem, hsub, hlen⟩ := popLast_of_ne_nil hne
      have hcnt2 : countNone rest ≤ ws2.length := by omega
      have hall2 : ∀ x ∈ ws2, x = Card.Wildcard := fun x hx => hall x (hsub.mem hx)
      rw [fillWindow, hpop]
      dsimp only
      rw [ih ws2 hcnt2 hall2, hall c hmem]
      rfl

/-- The windows emitted at one window length: realizable offsets in ascending
order, each filled by replacing empty slots with wildcards. -/
def runWindowsAt (slots : List (Option Card)) (ws : List Card) (len : Nat) :
    List (List Card) :=
  ((List.range (slots.length - len + 1)).filter
      (fun s => decide (countNone (windowSlice slots s len) ≤ ws.length))).map
    (fun s => (windowSlice slots s len).map (fun o => o.getD Card.Wildcard))

/-- All windows emitted by `create_run_windows`, lengths descending. -/
def runWindowsSpec (slots : List (Option Card)) (ws : List Card) :
    List (List Card) :=
  ((lengthsDesc slots.length).map (runWindowsAt slots ws)).flatten

theorem collectStarts_eq {slots : List (Option Card)} {ws : List Card} {len : Nat}
    (hall : ∀ c ∈ ws, c = Card.Wildcard) :
    ∀ starts : List Nat,
      collectStarts slots ws len starts =
        some ((starts.filter
            (fun s => decide (countNone (windowSlice slots s len) ≤ ws.length))).map
          (fun s => (windowSlice slots s len).map (fun o => o.getD Card.Wildcard))) := by
  intro starts
  induction starts with
  | nil => rfl
  | cons s rest ih =>
    rw [collectStarts]
    by_cases h : countNone (windowSlice slots s len) ≤ ws.length
    · rw [if_pos h, fillWindow_eq_map _ _ h hall]
      dsimp only
      rw [ih]
      simp [h]
    · rw [if_neg h, ih]
      simp [h]

theorem collectStarts_isSome (slots : List (Option Card)) (ws : List Card) (len : Nat) :
    ∀ starts : List Nat, (collectStarts slots ws len starts).isSome := by
  intro starts
  induction starts with
  | nil => rfl
  | cons s rest ih =>
    rw [collectStarts]
    by_cases h : countNone (windowSlice slots s len) ≤ ws.length
    · rw [if_pos h]
      have hf := fillWindow_isSome (windowSlice slots s len) ws h
      rcases hfw : fillWindow (windowSlice slots s len) ws with _ | run
      · rw [hfw] at hf; exact absurd hf (by simp)
      · dsimp only
        rcases hcs : collectStarts slots ws len rest with _ | rs
        · rw [hcs] at ih; exact absurd ih (by simp)
        · rfl
    · rw [if_neg h]
      exact ih

theorem collectLengths_eq {slots : List (Option Card)} {ws : List Card}
    (hall : ∀ c ∈ ws, c = Card.Wildcard) :
    ∀ lens : List Nat,
      collectLengths slots ws lens = some ((lens.map (runWindowsAt slots ws)).flatten) := by
  intro lens
  induction lens with
  | nil => rfl
  | cons len rest ih =>
    rw [collectLengths, collectStarts_eq hall]
    dsimp only
    rw [ih]
    rfl

theorem collectLengths_isSome (slots : List (Option Card)) (ws : List Card) :
    ∀ lens : List Nat, (collectLengths slots ws lens).isSome := by
  intro lens
  induction lens with
  | nil => rfl
  | cons len rest ih =>
    rw [collectLengths]
    have h1 := collectStarts_isSome slots ws len (List.range (slots.length - len + 1))
    rcases hcs : collectStarts slots ws len (List.range (slots.length - len + 1)) with _ | rs1
    · rw [hcs] at h1; exact absurd h1 (by simp)
    · dsimp only
      rcases hcl : collectLengths slots ws rest with _ | rs2
      · rw [hcl] at ih; exact absurd ih (by simp)
      · rfl

theorem create_run_windows_eq {slots : List (Option Card)} {ws : List Card}
    (hall : ∀ c ∈ ws, c = Card.Wildcard) :
    create_run_windows slots ws = some (runWindowsSpec slots ws) :=
  collectLengths_eq hall _

theorem create_run_windows_isSome (slots : List (Option Card)) (ws : List Card) :
    (create_run_windows slots ws).isSome :=
  collectLengths_isSome slots ws _

theorem mem_lengthsDesc {n len : Nat} : len ∈ lengthsDesc n ↔ 3 ≤ len ∧ len ≤ n := by
  simp only [lengthsDesc, List.mem_map, List.mem_range]
  constructor
  · rintro ⟨i, hi, rfl⟩
    omega
  · rintro ⟨h3, hn⟩
    exact ⟨n - len, by omega, by omega⟩

theorem mem_runWindowsAt {slots : List (Option Card)} {ws : List Card} {len : Nat}
    {r : List Card} :
    r ∈ runWindowsAt slots ws len ↔
      ∃ s, s < slots.length - len + 1 ∧ countNone (windowSlice slots s len) ≤ ws.length ∧
        r = (windowSlice slots s len).map (fun o => o.getD Card.Wildcard) := by
  simp only [runWindowsAt, List.mem_map, List.mem_filter, List.mem_range, decide_eq_true_eq]
  constructor
  · rintro ⟨s, ⟨hs, hcnt⟩, rfl⟩
    exact ⟨s, hs, hcnt, rfl⟩
  · rintro ⟨s, hs, hcnt, rfl⟩
    exact ⟨s, ⟨hs, hcnt⟩, rfl⟩

/-- Membership in the emitted run windows, as a window length, offset and
realizability condition. -/
theorem mem_runWindowsSpec {slots : List (Option Card)} {ws : List Card} {r : List Card} :
    r ∈ runWindowsSpec slots ws ↔
      ∃ len s, 3 ≤ len ∧ len ≤ slots.length ∧ s + len ≤ slots.length ∧
        countNone (windowSlice slots s len) ≤ ws.length ∧
        r = (windowSlice slots s len).map (fun o => o.getD Card.Wildcard) := by
  simp only [runWindowsSpec, List.mem_flatten, List.mem_map]
  constructor
  · rintro ⟨_, ⟨len, hlen, rfl⟩, hr⟩
    rcases mem_lengthsDesc.mp hlen with ⟨h3, hn⟩
    obtain ⟨s, hs, hcnt, rfl⟩ := mem_runWindowsAt.mp hr
    exact ⟨len, s, h3, hn, by omega, hcnt, rfl⟩
  · rintro ⟨len, s, h3, hn, hsl, hcnt, rfl⟩
    refine ⟨runWindowsAt slots ws len, ⟨len, mem_lengthsDesc.mpr ⟨h3, hn⟩, rfl⟩, ?_⟩
    exact mem_runWindowsAt.mpr ⟨s, by omega, hcnt, rfl⟩

/-- The value computed by `runsForColor` on the hand's wildcard pool. -/
def colorRuns (cards : List Card) (co : Color) : List (List Card) :=
  if (numbersOf cards co).length = 0 then []
  else if 3 ≤ (numbersOf cards co).length + (get_wildcards cards).length then
    runWindowsSpec (slotsFor cards co) (get_wildcards cards)
  else []

theorem runsForColor_eq (cards : List Card) (co : Color) :
    runsForColor cards (get_wildcards cards) co = some (colorRuns cards co) := by
  rw [runsForColor, colorRuns]
  by_cases h0 : (numbersOf cards co).length = 0
  · rw [if_pos h0, if_pos h0]
  · rw [if_neg h0, if_neg h0]
    by_cases h3 : 3 ≤ (numbersOf cards co).length + (get_wildcards cards).length
    · rw [if_pos h3, if_pos h3]
      exact create_run_windows_eq (fun c hc => mem_get_wildcards hc)
    · rw [if_neg h3, if_neg h3]

theorem find_runs_eq (cards : List Card) :
    find_runs cards = some ((colorList.map (colorRuns cards)).flatten) := by
  rw [find_runs]
  have : ∀ cos : List Color,
      cos.foldr
        (fun co acc =>
          match runsForColor cards (get_wildcards cards) co, acc with
          | some rs, some rest => some (rs ++ rest)
          | _, _ => none)
        (some []) = some ((cos.map (colorRuns cards)).flatten) := by
    intro cos
    induction cos with
    | nil => rfl
    | cons co rest ih =>
      rw [List.foldr_cons, ih, runsForColor_eq]
      rfl
  exact this colorList

theorem valid_sets_eq (cards : List Card) :
    valid_sets cards =
      some (find_same_numbers cards ++ (colorList.map (colorRuns cards)).flatten) := by
  rw [valid_sets, find_runs_eq]

theorem mem_flatten_colorRuns {cards : List Card} {r : List Card} :
    r ∈ (colorList.map (colorRuns cards)).flatten ↔ ∃ co, r ∈ colorRuns cards co := by
  simp only [List.mem_flatten, List.mem_map]
  constructor
  · rintro ⟨_, ⟨co, _, rfl⟩, hr⟩
    exact ⟨co, hr⟩
  · rintro ⟨co, hr⟩
    refine ⟨colorRuns cards co, ⟨co, ?_, rfl⟩, hr⟩
    cases co <;> simp [colorList]

theorem length_slotsFor (cards : List Card) (co : Color) :
    (slotsFor cards co).length = 13 := by
  rw [slotsFor, List.length_map, List.length_range]

theorem mem_numbersOf {cards : List Card} {co : Color} {n : Int} :
    n ∈ numbersOf cards co ↔ Card.Numbered n co ∈ cards := by
  rw [numbersOf, List.mem_dedup, List.mem_filterMap]
  constructor
  · rintro ⟨c, hc, hm⟩
    cases c with
    | Numbered n2 c2 =>
      dsimp only at hm
      by_cases h : c2 = co
      · rw [if_pos h] at hm
        injection hm with hm
        subst hm; subst h; exact hc
      · rw [if_neg h] at hm; cases hm
    | Wildcard => cases hm
  · intro hc
    exact ⟨Card.Numbered n co, hc, by simp⟩

theorem slotsFor_getElem (cards : List Card) (co : Color) (i : Nat) (h : i < 13) :
    (slotsFor cards co).get ⟨i, by rw [length_slotsFor]; exact h⟩ =
      if ((i : Int) + 1) ∈ numbersOf cards co then some (Card.Numbered ((i : Int) + 1) co)
      else none := by
  simp only [slotsFor, List.get_eq_getElem, List.getElem_map, List.getElem_range]

theorem mem_slotsFor {cards : List Card} {co : Color} {o : Option Card}
    (h : o ∈ slotsFor cards co) :
    o = none ∨ ∃ n : Int, o = some (Card.Numbered n co) ∧ Card.Numbered n co ∈ cards := by
  rw [slotsFor] at h
  rcases List.mem_map.mp h with ⟨i, _, rfl⟩
  by_cases hm : ((i : Int) + 1) ∈ numbersOf cards co
  · rw [if_pos hm]
    exact Or.inr ⟨(i : Int) + 1, rfl, mem_numbersOf.mp hm⟩
  · rw [if_neg hm]
    exact Or.inl rfl

theorem windowSlice_sublist (slots : List (Option Card)) (s len : Nat) :
    (windowSlice slots s len).Sublist slots :=
  (List.take_sublist _ _).trans (List.drop_sublist _ _)

theorem length_windowSlice {slots : List (Option Card)} {s len : Nat}
    (h : s + len ≤ slots.length) : (windowSlice slots s len).length = len := by
  simp [windowSlice]
  omega

theorem windowSlice_getElem {slots : List (Option Card)} {s len j : Nat}
    (hj : j < len) (h : s + len ≤ slots.length) :
    (windowSlice slots s len).get
        ⟨j, by rw [length_windowSlice h]; exact hj⟩ =
      slots.get ⟨s + j, by omega⟩ := by
  simp only [windowSlice, List.get_eq_getElem, List.getElem_take, List.getElem_drop]

theorem count_wildcard_map_getD :
    ∀ slice : List (Option Card),
      (∀ o ∈ slice, o = none ∨ ∃ n co2, o = some (Card.Numbered n co2)) →
      List.count Card.Wildcard (slice.map (fun o => o.getD Card.Wildcard)) =
        countNone slice := by
  intro slice
  induction slice with
  | nil => intro _; rfl
  | cons o rest ih =>
    intro hall
    have hrest := fun o ho => hall o (List.mem_cons_of_mem _ ho)
    rcases hall o (List.mem_cons_self _ _) with rfl | ⟨n, co2, rfl⟩
    · simp only [List.map_cons, Option.getD_none, countNone_cons_none, ← ih hrest]
      rw [List.count_cons]
      simp
    · simp only [List.map_cons, Option.getD_some, countNone_cons_some, ← ih hrest]
      rw [List.count_cons]
      simp

/-- Shape of every window emitted for one color: some window start `s` and
length `len` at least 3 fitting in the 13 slots, with each position holding
either a wildcard or the hand's tile of that color numbered `s + j + 1`, and
no more wildcards than the hand provides. -/
theorem colorRuns_shape {cards : List Card} {co : Color} {r : List Card}
    (hr : r ∈ colorRuns cards co) :
    ∃ (s len : Nat), 3 ≤ len ∧ s + len ≤ 13 ∧ r.length = len ∧
      List.count Card.Wildcard r ≤ (get_wildcards cards).length ∧
      ∀ j (hj : j < r.length),
        r.get ⟨j, hj⟩ = Card.Wildcard ∨
        (r.get ⟨j, hj⟩ = Card.Numbered ((s : Int) + (j : Int) + 1) co ∧
          Card.Numbered ((s : Int) + (j : Int) + 1) co ∈ cards) := by
  rw [colorRuns] at hr
  by_cases h0 : (numbersOf cards co).length = 0
  · rw [if_pos h0] at hr; cases hr
  · rw [if_neg h0] at hr
    by_cases h3 : 3 ≤ (numbersOf cards co).length + (get_wildcards cards).length
    · rw [if_pos h3] at hr
      obtain ⟨len, s, hl3, hlenle, hsle, hcnt, rfl⟩ := mem_runWindowsSpec.mp hr
      rw [length_slotsFor] at hlenle hsle
      have hslots : s + len ≤ (slotsFor cards co).length := by
        rw [length_slotsFor]; omega
      have hslice : (windowSlice (slotsFor cards co) s len).length = len :=
        length_windowSlice hslots
      refine ⟨s, len, hl3, by omega, by rw [List.length_map, hslice], ?_, ?_⟩
      · have hentries : ∀ o ∈ windowSlice (slotsFor cards co) s len,
            o = none ∨ ∃ n co2, o = some (Card.Numbered n co2) := by
          intro o ho
          have := (windowSlice_sublist (slotsFor cards co) s len).mem ho
          rcases mem_slotsFor this with rfl | ⟨n, rfl, _⟩
          · exact Or.inl rfl
          · exact Or.inr ⟨n, co, rfl⟩
        rw [count_wildcard_map_getD _ hentries]
        exact hcnt
      · intro j hj
        rw [List.length_map, hslice] at hj
        have hget : ((windowSlice (slotsFor cards co) s len).map
              (fun o => o.getD Card.Wildcard)).get
              ⟨j, by rw [List.length_map, hslice]; exact hj⟩ =
            ((windowSlice (slotsFor cards co) s len).get
              ⟨j, by rw [hslice]; exact hj⟩).getD Card.Wildcard := by
          simp [List.get_eq_getElem]
        rw [hget, windowSlice_getElem hj hslots]
        have hsj : s + j < 13 := by omega
        rw [slotsFor_getElem cards co (s + j) hsj]
        by_cases hm : (((s + j : Nat) : Int) + 1) ∈ numbersOf cards co
        · rw [if_pos hm]
          right
          have hcast : ((s + j : Nat) : Int) + 1 = (s : Int) + (j : Int) + 1 := by
            push_cast
            ring
          rw [Option.getD_some]
          rw [hcast] at hm ⊢
          exact ⟨rfl, mem_numbersOf.mp hm⟩
        · rw [if_neg hm]
          exact Or.inl rfl
    · rw [if_neg h3] at hr; cases hr

theorem mem_foldl_setUnion_guard {α : Type} (P : α → Prop) [DecidablePred P]
    (f : α → List (List Card)) (l : List α) (init : List (List Card)) (y : List Card) :
    y ∈ l.foldl (fun acc i => if P i then setUnion acc (f i) else acc) init ↔
      y ∈ init ∨ ∃ i ∈ l, P i ∧ y ∈ f i := by
  induction l generalizing init with
  | nil => simp
  | cons a l2 ih =>
    simp only [List.foldl_cons, ih, List.mem_cons]
    by_cases hP : P a
    · rw [if_pos hP]
      simp only [mem_setUnion]
      constructor
      · rintro (⟨h | h⟩ | ⟨i, hi, hPi, hy⟩)
        · exact Or.inl h
        · exact Or.inr ⟨a, Or.inl rfl, hP, h⟩
        · exact Or.inr ⟨i, Or.inr hi, hPi, hy⟩
      · rintro (h | ⟨i, rfl | hi, hPi, hy⟩)
        · exact Or.inl (Or.inl h)
        · exact Or.inl (Or.inr hy)
        · exact Or.inr ⟨i, hi, hPi, hy⟩
    · rw [if_neg hP]
      constructor
      · rintro (h | ⟨i, hi, hPi, hy⟩)
        · exact Or.inl h
        · exact Or.inr ⟨i, Or.inr hi, hPi, hy⟩
      · rintro (h | ⟨i, rfl | hi, hPi, hy⟩)
        · exact Or.inl h
        · exact absurd hPi hP
        · exact Or.inr ⟨i, hi, hPi, hy⟩

theorem foldl_setUnion_guard_sorted {α : Type} (P : α → Prop) [DecidablePred P]
    (f : α → List (List Card)) (l : List α) {init : List (List Card)}
    (h : SetSorted init) :
    SetSorted (l.foldl (fun acc i => if P i then setUnion acc (f i) else acc) init) := by
  induction l generalizing init with
  | nil => exact h
  | cons a l2 ih =>
    rw [List.foldl_cons]
    by_cases hP : P a
    · rw [if_pos hP]
      exact ih (setUnion_sorted h)
    · rw [if_neg hP]
      exact ih h

theorem mem_find_same_numbers_iff {cards : List Card} {y : List Card} :
    y ∈ find_same_numbers cards ↔
      ∃ g ∈ groupRuns ((canonical cards).filter (fun c => !c.isWild)),
        3 ≤ (uniqueByAux [] g).length + (get_wildcards cards).length ∧
        y ∈ create_permutations (uniqueByAux [] g ++ get_wildcards cards) := by
  rw [find_same_numbers]
  rw [mem_foldl_setUnion_guard
    (fun g => 3 ≤ (uniqueByAux [] g).length + (get_wildcards cards).length)
    (fun g => create_permutations (uniqueByAux [] g ++ get_wildcards cards))]
  simp

theorem find_same_numbers_sorted (cards : List Card) :
    SetSorted (find_same_numbers cards) := by
  rw [find_same_numbers]
  exact foldl_setUnion_guard_sorted
    (fun g => 3 ≤ (uniqueByAux [] g).length + (get_wildcards cards).length)
    (fun g => create_permutations (uniqueByAux [] g ++ get_wildcards cards))
    _ List.Pairwise.nil

theorem cardLe_wildcard (a : Card) : cardLe a Card.Wildcard = true := by
  cases a <;> simp [cardLe, cardLt]

theorem count_wildcard_get_wildcards (cards : List Card) :
    List.count Card.Wildcard (get_wildcards cards) = (get_wildcards cards).length :=
  List.count_eq_length.mpr (fun _ hb => (mem_get_wildcards hb).symm)

theorem length_get_wildcards (cards : List Card) :
    (get_wildcards cards).length = List.count Card.Wildcard cards := by
  rw [get_wildcards, ← List.countP_eq_length_filter]
  show List.countP Card.isWild cards = List.countP (fun b => b == Card.Wildcard) cards
  refine List.countP_congr (fun x _ => ?_)
  cases x <;> simp [Card.isWild]

/-- Shape of every set emitted by the group finder: size 3 or 4, at most the
hand's wildcards used, all numbered tiles sharing a number, numbered tiles of
pairwise distinct colors, sorted by the card order, and drawn from the hand. -/
theorem find_same_numbers_shape {cards y : List Card} (hy : y ∈ find_same_numbers cards) :
    (y.length = 3 ∨ y.length = 4) ∧
    List.count Card.Wildcard y ≤ (get_wildcards cards).length ∧
    (∃ n : Int, ∀ c ∈ y, c ≠ Card.Wildcard → c.number = some n) ∧
    (y.filter (fun c => !c.isWild)).Pairwise (fun a b => a.color ≠ b.color) ∧
    CardSorted y ∧
    y.Subperm cards := by
  obtain ⟨g0, hg0, hlen3, hcp⟩ := mem_find_same_numbers_iff.mp hy
  have hg0sub : g0.Sublist ((canonical cards).filter (fun c => !c.isWild)) :=
    groupRuns_mem_sublist hg0
  have husub : (uniqueByAux [] g0).Sublist g0 := uniqueByAux_sublist [] g0
  have hunonw : ∀ c ∈ uniqueByAux [] g0, c.isWild = false := by
    intro c hc
    have hmf : c ∈ (canonical cards).filter (fun c => !c.isWild) :=
      hg0sub.mem (husub.mem hc)
    have := (List.mem_filter.mp hmf).2
    simpa using this
  have husorted : CardSorted (uniqueByAux [] g0) :=
    List.Pairwise.sublist (husub.trans hg0sub)
      ((canonical_sorted cards).filter (fun c => !c.isWild))
  have hwsall : ∀ c ∈ get_wildcards cards, c = Card.Wildcard := fun c hc =>
    mem_get_wildcards hc
  have hpoollen : 3 ≤ (uniqueByAux [] g0 ++ get_wildcards cards).length := by
    rw [List.length_append]; exact hlen3
  have hysub : y.Sublist (uniqueByAux [] g0 ++ get_wildcards cards) :=
    create_permutations_sublist hcp
  have hpoolsorted : CardSorted (uniqueByAux [] g0 ++ get_wildcards cards) := by
    refine List.pairwise_append.mpr ⟨husorted, ?_, ?_⟩
    · exact List.pairwise_of_forall_mem_list (fun a ha b hb => by
        rw [hwsall a ha, hwsall b hb]; exact cardLe_refl _)
    · intro a _ b hb
      rw [hwsall b hb]
      exact cardLe_wildcard a
  have hfilter_pool : (uniqueByAux [] g0 ++ get_wildcards cards).filter
      (fun c => !c.isWild) = uniqueByAux [] g0 := by
    rw [List.filter_append]
    have h1 : (uniqueByAux [] g0).filter (fun c => !c.isWild) = uniqueByAux [] g0 :=
      List.filter_eq_self.mpr (fun a ha => by rw [hunonw a ha]; rfl)
    have h2 : (get_wildcards cards).filter (fun c => !c.isWild) = [] :=
      List.filter_eq_nil_iff.mpr (fun a ha => by rw [hwsall a ha]; simp [Card.isWild])
    rw [h1, h2, List.append_nil]
  have hcountW : List.count Card.Wildcard (uniqueByAux [] g0 ++ get_wildcards cards) =
      (get_wildcards cards).length := by
    rw [List.count_append, count_wildcard_get_wildcards,
      List.count_eq_zero.mpr (fun hmem => by
        have := hunonw Card.Wildcard hmem
        simp [Card.isWild] at this),
      Nat.zero_add]
  refine ⟨create_permutations_length hpoollen hcp, ?_, ?_, ?_, ?_, ?_⟩
  · calc List.count Card.Wildcard y
        ≤ List.count Card.Wildcard (uniqueByAux [] g0 ++ get_wildcards cards) :=
          hysub.count_le _
      _ = (get_wildcards cards).length := hcountW
  · obtain ⟨k, hk⟩ := groupRuns_same_number g0 hg0
    have hnum : ∀ c ∈ y, c ≠ Card.Wildcard → c.number = k := by
      intro c hc hcw
      rcases List.mem_append.mp (hysub.mem hc) with hcu | hcw2
      · exact hk c (husub.mem hcu)
      · exact absurd (hwsall c hcw2) hcw
    by_cases hex : ∃ c ∈ y, c ≠ Card.Wildcard
    · obtain ⟨c0, hc0, hc0w⟩ := hex
      cases c0 with
      | Wildcard => exact absurd rfl hc0w
      | Numbered n co0 =>
        refine ⟨n, fun c hc hcw => ?_⟩
        rw [hnum c hc hcw, ← hnum (Card.Numbered n co0) hc0 hc0w]
        rfl
    · refine ⟨0, fun c hc hcw => absurd ⟨c, hc, hcw⟩ hex⟩
  · have : (y.filter (fun c => !c.isWild)).Sublist (uniqueByAux [] g0) := by
      rw [← hfilter_pool]
      exact hysub.filter _
    exact List.Pairwise.sublist this (uniqueByAux_pairwise [] g0)
  · exact List.Pairwise.sublist hysub hpoolsorted
  · refine (hysub.subperm).trans (List.subperm_ext_iff.mpr ?_)
    intro x hx
    by_cases hxw : x = Card.Wildcard
    · subst hxw
      rw [hcountW, length_get_wildcards]
    · rw [List.count_append]
      have h2 : List.count x (get_wildcards cards) = 0 :=
        List.count_eq_zero.mpr (fun hmem => hxw (hwsall x hmem))
      rw [h2, Nat.add_zero]
      have hxnw : (!x.isWild) = true := by
        cases x with
        | Wildcard => exact absurd rfl hxw
        | Numbered n co => simp [Card.isWild]
      calc List.count x (uniqueByAux [] g0)
          ≤ List.count x ((canonical cards).filter (fun c => !c.isWild)) :=
            (husub.trans hg0sub).count_le x
        _ = List.count x (canonical cards) := List.count_filter hxnw
        _ = List.count x cards := (canonical_perm cards).count_eq x

theorem isWild_false_iff {c : Card} : (!c.isWild) = true ↔ c ≠ Card.Wildcard := by
  cases c <;> simp [Card.isWild]

/-- Tiles of an emitted run window at distinct positions carry distinct
numbers unless one of them is a wildcard. -/
theorem colorRuns_pairwise_numbers {cards : List Card} {co : Color} {r : List Card}
    (hr : r ∈ colorRuns cards co) :
    r.Pairwise (fun x y => x ≠ Card.Wildcard → y ≠ Card.Wildcard → x.number ≠ y.number) := by
  obtain ⟨s, len, _, _, _, _, hpos⟩ := colorRuns_shape hr
  rw [List.pairwise_iff_getElem]
  intro i j hi hj hij
  intro hxw hyw hnum
  rcases hpos i hi with hwi | ⟨hvi, _⟩
  · rw [List.get_eq_getElem] at hwi
    exact hxw hwi
  · rcases hpos j hj with hwj | ⟨hvj, _⟩
    · rw [List.get_eq_getElem] at hwj
      exact hyw hwj
    · rw [List.get_eq_getElem] at hvi hvj
      rw [hvi, hvj] at hnum
      simp only [Card.number, Option.some.injEq] at hnum
      omega

/-- Every emitted run window draws its tiles from the hand. -/
theorem colorRuns_subperm {cards : List Card} {co : Color} {r : List Card}
    (hr : r ∈ colorRuns cards co) : r.Subperm cards := by
  obtain ⟨s, len, _, _, _, hcount, hpos⟩ := colorRuns_shape hr
  have hpair := colorRuns_pairwise_numbers hr
  have hnodup : (r.filter (fun c => !c.isWild)).Nodup := by
    refine List.Pairwise.imp_of_mem ?_ (hpair.filter (fun c => !c.isWild))
    intro a b ha hb hR
    have haw : a ≠ Card.Wildcard := isWild_false_iff.mp (List.mem_filter.mp ha).2
    have hbw : b ≠ Card.Wildcard := isWild_false_iff.mp (List.mem_filter.mp hb).2
    intro hab
    exact hR haw hbw (by rw [hab])
  refine List.subperm_ext_iff.mpr (fun x hx => ?_)
  by_cases hxw : x = Card.Wildcard
  · subst hxw
    calc List.count Card.Wildcard r ≤ (get_wildcards cards).length := hcount
      _ = List.count Card.Wildcard cards := length_get_wildcards cards
  · have hx_in_cards : x ∈ cards := by
      obtain ⟨⟨jv, hjv⟩, hget⟩ := List.mem_iff_get.mp hx
      rcases hpos jv hjv with hwj | ⟨hvj, hmem⟩
      · rw [hget] at hwj
        exact absurd hwj hxw
      · rw [hget] at hvj
        rw [hvj]
        exact hmem
    have h1 : List.count x r ≤ 1 := by
      have h2 : List.count x (r.filter (fun c => !c.isWild)) ≤ 1 :=
        List.nodup_iff_count_le_one.mp hnodup x
      rwa [@List.count_filter Card _ _ (fun c => !c.isWild) x r
        (isWild_false_iff.mpr hxw)] at h2
    calc List.count x r ≤ 1 := h1
      _ ≤ List.count x cards := List.count_pos_iff.mpr hx_in_cards

/-- Validity of a group per the specification: tiles drawn from the hand,
size 3 or 4, all numbered tiles sharing one number, and numbered tiles of
pairwise distinct colors. -/
def SpecValidGroup (hand s : List Card) : Prop :=
  s.Subperm hand ∧ (s.length = 3 ∨ s.length = 4) ∧
  (∃ n : Int, ∀ c ∈ s, c ≠ Card.Wildcard → c.number = some n) ∧
  (s.filter (fun c => !c.isWild)).Pairwise (fun a b => a.color ≠ b.color)

/-- Validity of a run per the specification: tiles drawn from the hand,
length at least 3, one color, consecutive numbers staying within 1..13, with
wildcards standing for missing numbers. -/
def SpecValidRun (hand s : List Card) : Prop :=
  s.Subperm hand ∧ 3 ≤ s.length ∧
  ∃ co : Color, ∃ a : Int, 1 ≤ a ∧ a + s.length ≤ 14 ∧
    ∀ j (hj : j < s.length),
      s.get ⟨j, hj⟩ = Card.Wildcard ∨ s.get ⟨j, hj⟩ = Card.Numbered (a + j) co

theorem find_same_numbers_specValid {cards y : List Card}
    (hy : y ∈ find_same_numbers cards) : SpecValidGroup cards y := by
  obtain ⟨hlen, _, hnum, hcol, _, hsp⟩ := find_same_numbers_shape hy
  exact ⟨hsp, hlen, hnum, hcol⟩

theorem colorRuns_specValid {cards : List Card} {co : Color} {r : List Card}
    (hr : r ∈ colorRuns cards co) : SpecValidRun cards r := by
  obtain ⟨s, len, h3, h13, hlen, _, hpos⟩ := colorRuns_shape hr
  refine ⟨colorRuns_subperm hr, by omega, co, (s : Int) + 1, by omega, ?_, ?_⟩
  · rw [hlen]
    omega
  · intro j hj
    rcases hpos j hj with hw | ⟨hv, _⟩
    · exact Or.inl hw
    · right
      rw [hv]
      have : (s : Int) + (j : Int) + 1 = ((s : Int) + 1) + (j : Int) := by ring
      rw [this]

/-- Claim C1 is false as stated: on the hand 2-Blue, 3-Blue, Wildcard the
run finder emits two distinct windows (the wildcard standing for 1 and for 4)
whose canonical tile-value content coincides, so one `valid_sets` call
contains a duplicate. -/
theorem c1_counterexample :
    valid_sets [Card.Numbered 2 Color.Blue, Card.Numbered 3 Color.Blue, Card.Wildcard] =
      some [[Card.Wildcard, Card.Numbered 2 Color.Blue, Card.Numbered 3 Color.Blue],
        [Card.Numbered 2 Color.Blue, Card.Numbered 3 Color.Blue, Card.Wildcard]] ∧
    canonical [Card.Wildcard, Card.Numbered 2 Color.Blue, Card.Numbered 3 Color.Blue] =
      canonical [Card.Numbered 2 Color.Blue, Card.Numbered 3 Color.Blue, Card.Wildcard] ∧
    [Card.Wildcard, Card.Numbered 2 Color.Blue, Card.Numbered 3 Color.Blue] ≠
      [Card.Numbered 2 Color.Blue, Card.Numbered 3 Color.Blue, Card.Wildcard] := by
  refine ⟨by decide, by decide, by decide⟩

/-- Claim C1 (amended): within one call, the group finder never emits two
sets with identical canonical (sorted) tile-value content; the run finder
may emit windows with equal tile multisets. -/
theorem c1_group_no_duplicates (cards : List Card) :
    (find_same_numbers cards).Pairwise (fun a b => canonical a ≠ canonical b) := by
  refine List.Pairwise.imp_of_mem ?_ (find_same_numbers_sorted cards)
  intro a b ha hb hlt hcan
  have ha2 : CardSorted a := (find_same_numbers_shape ha).2.2.2.2.1
  have hb2 : CardSorted b := (find_same_numbers_shape hb).2.2.2.2.1
  rw [canonical_of_sorted ha2, canonical_of_sorted hb2] at hcan
  subst hcan
  rw [listLt_irrefl] at hlt
  exact absurd hlt (by simp)

/-- Claim C2 is false as stated: for the hand 2-Blue, 2-Red, 2-Yellow,
Wildcard the group search returns 5 sets, not 6 (there are only 3
two-of-three-colors-plus-wildcard triples, not 4). -/
theorem c2_counterexample :
    (find_same_numbers [Card.Numbered 2 Color.Blue, Card.Numbered 2 Color.Red,
        Card.Numbered 2 Color.Yellow, Card.Wildcard]).length = 5 ∧
    (find_same_numbers [Card.Numbered 2 Color.Blue, Card.Numbered 2 Color.Red,
        Card.Numbered 2 Color.Yellow, Card.Wildcard]).length ≠ 6 := by
  refine ⟨by decide, by decide⟩

/-- Claim C2 (amended): for the hand 2-Blue, 2-Red, 2-Yellow, Wildcard the
group search returns exactly 5 sets: the full triple, the triple plus the
wildcard, and the 3 two-of-three-colors-plus-wildcard triples. -/
theorem c2_amended :
    find_same_numbers [Card.Numbered 2 Color.Blue, Card.Numbered 2 Color.Red,
        Card.Numbered 2 Color.Yellow, Card.Wildcard] =
      [[Card.Numbered 2 Color.Red, Card.Numbered 2 Color.Blue,
          Card.Numbered 2 Color.Yellow],
        [Card.Numbered 2 Color.Red, Card.Numbered 2 Color.Blue,
          Card.Numbered 2 Color.Yellow, Card.Wildcard],
        [Card.Numbered 2 Color.Red, Card.Numbered 2 Color.Blue, Card.Wildcard],
        [Card.Numbered 2 Color.Red, Card.Numbered 2 Color.Yellow, Card.Wildcard],
        [Card.Numbered 2 Color.Blue, Card.Numbered 2 Color.Yellow, Card.Wildcard]] := by
  decide

/-- Claim C3 is false as stated: on the hand 3-Blue, Wildcard, Wildcard the
group finder and the run finder both emit the set 3-Blue, Wildcard, Wildcard,
so concatenation does introduce a duplicate (visible twice in `valid_sets`). -/
theorem c3_counterexample :
    valid_sets [Card.Numbered 3 Color.Blue, Card.Wildcard, Card.Wildcard] =
      some [[Card.Numbered 3 Color.Blue, Card.Wildcard, Card.Wildcard],
        [Card.Wildcard, Card.Wildcard, Card.Numbered 3 Color.Blue],
        [Card.Wildcard, Card.Numbered 3 Color.Blue, Card.Wildcard],
        [Card.Numbered 3 Color.Blue, Card.Wildcard, Card.Wildcard]] ∧
    [Card.Numbered 3 Color.Blue, Card.Wildcard, Card.Wildcard] ∈
      find_same_numbers [Card.Numbered 3 Color.Blue, Card.Wildcard, Card.Wildcard] ∧
    find_runs [Card.Numbered 3 Color.Blue, Card.Wildcard, Card.Wildcard] =
      some [[Card.Wildcard, Card.Wildcard, Card.Numbered 3 Color.Blue],
        [Card.Wildcard, Card.Numbered 3 Color.Blue, Card.Wildcard],
        [Card.Numbered 3 Color.Blue, Card.Wildcard, Card.Wildcard]] := by
  refine ⟨by decide, by decide, by decide⟩

/-- Claim C3 (amended): a set emitted by the group finder can share canonical
content with a set emitted by the run finder only when the group set has at
most one numbered tile; with two or more numbered tiles the canonical
contents always differ. -/
theorem c3_amended {cards g r : List Card} {rs : List (List Card)}
    (hg : g ∈ find_same_numbers cards) (hrs : find_runs cards = some rs)
    (hr : r ∈ rs) (h2 : 2 ≤ (g.filter (fun c => !c.isWild)).length) :
    canonical g ≠ canonical r := by
  intro hcan
  have hperm : List.Perm g r := perm_of_canonical_eq hcan
  have heq := find_runs_eq cards
  rw [hrs] at heq
  have hrs2 : rs = (colorList.map (colorRuns cards)).flatten := Option.some.inj heq
  subst hrs2
  obtain ⟨co, hrco⟩ := mem_flatten_colorRuns.mp hr
  have hpair := colorRuns_pairwise_numbers hrco
  obtain ⟨n, hn⟩ := (find_same_numbers_shape hg).2.2.1
  have hpermf : List.Perm (g.filter (fun c => !c.isWild)) (r.filter (fun c => !c.isWild)) :=
    hperm.filter _
  have hlen2 : 2 ≤ (r.filter (fun c => !c.isWild)).length := by
    rw [← hpermf.length_eq]
    exact h2
  have hnum_r : ∀ c ∈ r.filter (fun c => !c.isWild), c.number = some n := by
    intro c hc
    have hcg : c ∈ g.filter (fun c => !c.isWild) := hpermf.mem_iff.mpr hc
    rcases List.mem_filter.mp hcg with ⟨hcmem, hcw⟩
    exact hn c hcmem (isWild_false_iff.mp hcw)
  have hpairf : (r.filter (fun c => !c.isWild)).Pairwise
      (fun x y => x.number ≠ y.number) := by
    refine List.Pairwise.imp_of_mem ?_ (hpair.filter (fun c => !c.isWild))
    intro a b ha hb hR
    exact hR (isWild_false_iff.mp (List.mem_filter.mp ha).2)
      (isWild_false_iff.mp (List.mem_filter.mp hb).2)
  rcases hfr : r.filter (fun c => !c.isWild) with _ | ⟨c1, tail⟩
  · rw [hfr] at hlen2; simp at hlen2
  · rcases tail with _ | ⟨c2, tail2⟩
    · rw [hfr] at hlen2; simp at hlen2
    · rw [hfr] at hpairf hnum_r
      have hne := (List.pairwise_cons.mp hpairf).1 c2 (List.mem_cons_self _ _)
      have h1 := hnum_r c1 (List.mem_cons_self _ _)
      have h2n := hnum_r c2 (List.mem_cons_of_mem _ (List.mem_cons_self _ _))
      rw [h1, h2n] at hne
      exact hne rfl

/-- Witness for the amended claim C3 at the hand 2-Red, 2-Blue, 2-Yellow,
3-Blue, 4-Blue: the emitted group of three 2s and the emitted run 2-3-4 Blue
have different canonical contents. -/
theorem c3_witness :
    canonical [Card.Numbered 2 Color.Red, Card.Numbered 2 Color.Blue,
        Card.Numbered 2 Color.Yellow] ≠
      canonical [Card.Numbered 2 Color.Blue, Card.Numbered 3 Color.Blue,
        Card.Numbered 4 Color.Blue] :=
  @c3_amended
    [Card.Numbered 2 Color.Red, Card.Numbered 2 Color.Blue, Card.Numbered 2 Color.Yellow,
      Card.Numbered 3 Color.Blue, Card.Numbered 4 Color.Blue]
    [Card.Numbered 2 Color.Red, Card.Numbered 2 Color.Blue, Card.Numbered 2 Color.Yellow]
    [Card.Numbered 2 Color.Blue, Card.Numbered 3 Color.Blue, Card.Numbered 4 Color.Blue]
    [[Card.Numbered 2 Color.Blue, Card.Numbered 3 Color.Blue, Card.Numbered 4 Color.Blue]]
    (by decide) (by decide) (by decide) (by decide)

/-- Claim C4 is false as stated: on the hand 2-Blue, 3-Blue, Wildcard the
slot count for Blue is 2, so the claimed length range from `min(13, 2)` down
to 3 is empty, yet the run finder emits two windows of length 3. -/
theorem c4_counterexample :
    (numbersOf [Card.Numbered 2 Color.Blue, Card.Numbered 3 Color.Blue, Card.Wildcard]
        Color.Blue).length = 2 ∧
    find_runs [Card.Numbered 2 Color.Blue, Card.Numbered 3 Color.Blue, Card.Wildcard] =
      some [[Card.Wildcard, Card.Numbered 2 Color.Blue, Card.Numbered 3 Color.Blue],
        [Card.Numbered 2 Color.Blue, Card.Numbered 3 Color.Blue, Card.Wildcard]] ∧
    ¬ (3 ≤ min 13 (numbersOf [Card.Numbered 2 Color.Blue, Card.Numbered 3 Color.Blue,
        Card.Wildcard] Color.Blue).length) := by
  refine ⟨by decide, by decide, by decide⟩

/-- Claim C4 (amended): for every hand and color with at least one tile of
that color and at least 3 candidates, the run finder enumerates window
lengths from 13 (the slot-array length, not the slot count) down to 3 at
every offset fitting in 1..13, and emits a window exactly when its
empty-slot count is at most the hand's wildcard count, filled with wildcards
in increasing-number order. -/
theorem c4_amended {cards : List Card} {rs : List (List Card)}
    (h : find_runs cards = some rs) (r : List Card) :
    r ∈ rs ↔ ∃ co : Color, (numbersOf cards co).length ≠ 0 ∧
      3 ≤ (numbersOf cards co).length + (get_wildcards cards).length ∧
      ∃ (len s : Nat), 3 ≤ len ∧ len ≤ 13 ∧ s + len ≤ 13 ∧
        countNone (windowSlice (slotsFor cards co) s len) ≤ (get_wildcards cards).length ∧
        r = (windowSlice (slotsFor cards co) s len).map (fun o => o.getD Card.Wildcard) := by
  have heq := find_runs_eq cards
  rw [h] at heq
  have hrs2 : rs = (colorList.map (colorRuns cards)).flatten := Option.some.inj heq
  subst hrs2
  rw [mem_flatten_colorRuns]
  have hcol : ∀ co : Color, r ∈ colorRuns cards co ↔
      ((numbersOf cards co).length ≠ 0 ∧
        3 ≤ (numbersOf cards co).length + (get_wildcards cards).length ∧
        r ∈ runWindowsSpec (slotsFor cards co) (get_wildcards cards)) := by
    intro co
    rw [colorRuns]
    by_cases h0 : (numbersOf cards co).length = 0
    · rw [if_pos h0]
      simp [h0]
    · rw [if_neg h0]
      by_cases h3 : 3 ≤ (numbersOf cards co).length + (get_wildcards cards).length
      · rw [if_pos h3]
        simp [h0, h3]
      · rw [if_neg h3]
        simp [h0, h3]
  constructor
  · rintro ⟨co, hrco⟩
    rcases (hcol co).mp hrco with ⟨h0, h3, hspec⟩
    obtain ⟨len, s, hl3, hl13, hs13, hcnt, hform⟩ := mem_runWindowsSpec.mp hspec
    rw [length_slotsFor] at hl13 hs13
    exact ⟨co, h0, h3, len, s, hl3, hl13, hs13, hcnt, hform⟩
  · rintro ⟨co, h0, h3, len, s, hl3, hl13, hs13, hcnt, hform⟩
    refine ⟨co, (hcol co).mpr ⟨h0, h3, ?_⟩⟩
    refine mem_runWindowsSpec.mpr ⟨len, s, hl3, ?_, ?_, hcnt, hform⟩
    · rw [length_slotsFor]; exact hl13
    · rw [length_slotsFor]; exact hs13

/-- Witness for the amended claim C4 at the hand 2-Blue, 3-Blue, Wildcard:
the window of length 3 at offset 0 for Blue is emitted. -/
theorem c4_witness :
    [Card.Wildcard, Card.Numbered 2 Color.Blue, Card.Numbered 3 Color.Blue] ∈
      [[Card.Wildcard, Card.Numbered 2 Color.Blue, Card.Numbered 3 Color.Blue],
        [Card.Numbered 2 Color.Blue, Card.Numbered 3 Color.Blue, Card.Wildcard]] :=
  (@c4_amended [Card.Numbered 2 Color.Blue, Card.Numbered 3 Color.Blue, Card.Wildcard]
      [[Card.Wildcard, Card.Numbered 2 Color.Blue, Card.Numbered 3 Color.Blue],
        [Card.Numbered 2 Color.Blue, Card.Numbered 3 Color.Blue, Card.Wildcard]]
      (by decide) _).mpr
    ⟨Color.Blue, by decide, by decide, 3, 0, by decide, by decide, by decide,
      by decide, by decide⟩

/-- Claim C5: every set emitted by the group finder has all its numbered
tiles on one shared number, pairwise distinct colors among numbered tiles,
size 3 or 4, and contains at most as many wildcards as the hand. -/
theorem c5_group_validity {cards y : List Card} (hy : y ∈ find_same_numbers cards) :
    (∃ n : Int, ∀ c ∈ y, c ≠ Card.Wildcard → c.number = some n) ∧
    (y.filter (fun c => !c.isWild)).Pairwise (fun a b => a.color ≠ b.color) ∧
    (y.length = 3 ∨ y.length = 4) ∧
    List.count Card.Wildcard y ≤ (get_wildcards cards).length := by
  obtain ⟨hlen, hcnt, hnum, hcol, _, _⟩ := find_same_numbers_shape hy
  exact ⟨hnum, hcol, hlen, hcnt⟩

/-- Witness for claim C5 at the hand 2-Blue, 2-Red, 2-Yellow. -/
theorem c5_witness :
    (∃ n : Int, ∀ c ∈ [Card.Numbered 2 Color.Red, Card.Numbered 2 Color.Blue,
        Card.Numbered 2 Color.Yellow], c ≠ Card.Wildcard → c.number = some n) ∧
    ([Card.Numbered 2 Color.Red, Card.Numbered 2 Color.Blue,
        Card.Numbered 2 Color.Yellow].filter (fun c => !c.isWild)).Pairwise
      (fun a b => a.color ≠ b.color) ∧
    ([Card.Numbered 2 Color.Red, Card.Numbered 2 Color.Blue,
        Card.Numbered 2 Color.Yellow].length = 3 ∨
      [Card.Numbered 2 Color.Red, Card.Numbered 2 Color.Blue,
        Card.Numbered 2 Color.Yellow].length = 4) ∧
    List.count Card.Wildcard [Card.Numbered 2 Color.Red, Card.Numbered 2 Color.Blue,
        Card.Numbered 2 Color.Yellow] ≤
      (get_wildcards [Card.Numbered 2 Color.Blue, Card.Numbered 2 Color.Red,
        Card.Numbered 2 Color.Yellow]).length :=
  @c5_group_validity [Card.Numbered 2 Color.Blue, Card.Numbered 2 Color.Red,
    Card.Numbered 2 Color.Yellow]
    [Card.Numbered 2 Color.Red, Card.Numbered 2 Color.Blue, Card.Numbered 2 Color.Yellow]
    (by decide)

/-- Claim C6: every set emitted by the run finder consists of tiles of one
color at consecutive increasing numbers within 1..13 (wildcards standing for
missing numbers), has length between 3 and 13, and contains at most as many
wildcards as the hand. -/
theorem c6_run_validity {cards r : List Card} {rs : List (List Card)}
    (h : find_runs cards = some rs) (hr : r ∈ rs) :
    ∃ co : Color, ∃ a : Int, 1 ≤ a ∧ a + r.length ≤ 14 ∧ 3 ≤ r.length ∧ r.length ≤ 13 ∧
      (∀ j (hj : j < r.length), r.get ⟨j, hj⟩ = Card.Wildcard ∨
        r.get ⟨j, hj⟩ = Card.Numbered (a + j) co) ∧
      List.count Card.Wildcard r ≤ (get_wildcards cards).length := by
  have heq := find_runs_eq cards
  rw [h] at heq
  have hrs2 : rs = (colorList.map (colorRuns cards)).flatten := Option.some.inj heq
  subst hrs2
  obtain ⟨co, hrco⟩ := mem_flatten_colorRuns.mp hr
  obtain ⟨s, len, h3, h13, hlen, hcnt, hpos⟩ := colorRuns_shape hrco
  refine ⟨co, (s : Int) + 1, by omega, by rw [hlen]; omega, by omega, by omega, ?_, hcnt⟩
  intro j hj
  rcases hpos j hj with hw | ⟨hv, _⟩
  · exact Or.inl hw
  · right
    rw [hv]
    have hq : (s : Int) + (j : Int) + 1 = ((s : Int) + 1) + (j : Int) := by ring
    rw [hq]

/-- Witness for claim C6 at the hand 2-Blue, 3-Blue, 4-Blue. -/
theorem c6_witness :
    ∃ co : Color, ∃ a : Int, 1 ≤ a ∧
      a + [Card.Numbered 2 Color.Blue, Card.Numbered 3 Color.Blue,
        Card.Numbered 4 Color.Blue].length ≤ 14 ∧
      3 ≤ [Card.Numbered 2 Color.Blue, Card.Numbered 3 Color.Blue,
        Card.Numbered 4 Color.Blue].length ∧
      [Card.Numbered 2 Color.Blue, Card.Numbered 3 Color.Blue,
        Card.Numbered 4 Color.Blue].length ≤ 13 ∧
      (∀ j (hj : j < [Card.Numbered 2 Color.Blue, Card.Numbered 3 Color.Blue,
          Card.Numbered 4 Color.Blue].length),
        [Card.Numbered 2 Color.Blue, Card.Numbered 3 Color.Blue,
          Card.Numbered 4 Color.Blue].get ⟨j, hj⟩ = Card.Wildcard ∨
        [Card.Numbered 2 Color.Blue, Card.Numbered 3 Color.Blue,
          Card.Numbered 4 Color.Blue].get ⟨j, hj⟩ = Card.Numbered (a + j) co) ∧
      List.count Card.Wildcard [Card.Numbered 2 Color.Blue, Card.Numbered 3 Color.Blue,
        Card.Numbered 4 Color.Blue] ≤
        (get_wildcards [Card.Numbered 2 Color.Blue, Card.Numbered 3 Color.Blue,
          Card.Numbered 4 Color.Blue]).length :=
  @c6_run_validity
    [Card.Numbered 2 Color.Blue, Card.Numbered 3 Color.Blue, Card.Numbered 4 Color.Blue]
    [Card.Numbered 2 Color.Blue, Card.Numbered 3 Color.Blue, Card.Numbered 4 Color.Blue]
    [[Card.Numbered 2 Color.Blue, Card.Numbered 3 Color.Blue, Card.Numbered 4 Color.Blue]]
    (by decide) (by decide)

/-- Claim C7: the search is a deterministic function of the hand; two calls
on the same tile sequence return the same collection. -/
theorem c7_determinism (cards1 cards2 : List Card) (h : cards1 = cards2) :
    valid_sets cards1 = valid_sets cards2 := by
  rw [h]

/-- Witness for claim C7 at a one-tile hand. -/
theorem c7_witness :
    valid_sets [Card.Numbered 2 Color.Blue] = valid_sets [Card.Numbered 2 Color.Blue] :=
  c7_determinism [Card.Numbered 2 Color.Blue] [Card.Numbered 2 Color.Blue] rfl

/-- Claim C8: `valid_sets` has no failure modes: it returns normally on every
hand, and whenever the hand admits no valid group and no valid run (in the
specification sense) the result is the empty collection. -/
theorem c8_no_failure (cards : List Card) :
    ∃ out, valid_sets cards = some out ∧
      ((¬ ∃ s, SpecValidGroup cards s) ∧ (¬ ∃ s, SpecValidRun cards s) → out = []) := by
  refine ⟨find_same_numbers cards ++ (colorList.map (colorRuns cards)).flatten,
    valid_sets_eq cards, ?_⟩
  rintro ⟨hng, hnr⟩
  have h1 : find_same_numbers cards = [] :=
    List.eq_nil_iff_forall_not_mem.mpr
      (fun y hy => hng ⟨y, find_same_numbers_specValid hy⟩)
  have h2 : (colorList.map (colorRuns cards)).flatten = [] :=
    List.eq_nil_iff_forall_not_mem.mpr (fun r hr => by
      obtain ⟨co, hrco⟩ := mem_flatten_colorRuns.mp hr
      exact hnr ⟨r, colorRuns_specValid hrco⟩)
  rw [h1, h2]
  rfl

/-- Witness for claim C8: the empty hand admits no valid group and no valid
run, and `valid_sets` returns the empty collection on it. -/
theorem c8_witness : valid_sets [] = some [] := by
  obtain ⟨out, hout, himp⟩ := c8_no_failure []
  have hg : ¬ ∃ s, SpecValidGroup [] s := by
    rintro ⟨s, hsp, hlen, _⟩
    have hle := hsp.length_le
    simp only [List.length_nil] at hle
    omega
  have hr : ¬ ∃ s, SpecValidRun [] s := by
    rintro ⟨s, hsp, hlen, _⟩
    have hle := hsp.length_le
    simp only [List.length_nil] at hle
    omega
  rw [hout, himp ⟨hg, hr⟩]

/-- Claim C9: on the hand 7-Blue plus three wildcards, both finders emit the
all-wildcard set (the group finder by dropping the sole numbered tile from a
pool of size 4, the run finder by accepting a window with every slot empty),
and it appears in `valid_sets`. -/
theorem c9_all_wildcard_set :
    [Card.Wildcard, Card.Wildcard, Card.Wildcard] ∈
      find_same_numbers [Card.Numbered 7 Color.Blue, Card.Wildcard, Card.Wildcard,
        Card.Wildcard] ∧
    (find_runs [Card.Numbered 7 Color.Blue, Card.Wildcard, Card.Wildcard,
      Card.Wildcard]).isSome ∧
    [Card.Wildcard, Card.Wildcard, Card.Wildcard] ∈
      (find_runs [Card.Numbered 7 Color.Blue, Card.Wildcard, Card.Wildcard,
        Card.Wildcard]).getD [] ∧
    (valid_sets [Card.Numbered 7 Color.Blue, Card.Wildcard, Card.Wildcard,
      Card.Wildcard]).isSome ∧
    [Card.Wildcard, Card.Wildcard, Card.Wildcard] ∈
      (valid_sets [Card.Numbered 7 Color.Blue, Card.Wildcard, Card.Wildcard,
        Card.Wildcard]).getD [] := by
  refine ⟨by decide, by decide, by decide, by decide, by decide⟩

/-- Claim C10: the wildcard pop of `create_run_windows` never panics (the
fill is modelled in `Option`, with `none` standing for a panic, and is always
`some`), so `valid_sets` is panic-free on every hand. -/
theorem c10_no_panic :
    (∀ (slots : List (Option Card)) (ws : List Card),
      (create_run_windows slots ws).isSome) ∧
    (∀ cards : List Card, (valid_sets cards).isSome) := by
  constructor
  · intro slots ws
    exact create_run_windows_isSome slots ws
  · intro cards
    rw [valid_sets_eq cards]
    rfl

end Rummikub
